import Mathlib

/-! # adlane/exec: interactive process controller

A shallow embedding of `iexec.go` (byte channel `stdio`, the output pump
`ReadFrom`, `Send`, `Cancel`, the multiplexed `Receive` loop) and of
`exec.go` (`TimeoutedExec`), together with the properties proved about them.

Conventions of the embedding
* A Go `[]byte` and a Go `string` are both a `List Byte`.
* A Go `error` value is `Option GoError`; `none` is `nil`.
* A buffered Go channel is a capacity and a FIFO list; a send that would park
  the sending goroutine and a receive on an empty channel give `none`.
* `time.Time` and `time.Duration` are integers (nanoseconds); the clock
  readings and the outcome of every `select` are supplied by the schedule the
  loop is run against.
-/

namespace Exec

/-! ## Go values -/

/-- One byte of a Go byte slice or string. -/
abbrev Byte := UInt8

/-- Go `error` values met in the package: `io.EOF`, an `errors.New` value
carrying its text, and an operating-system error identified by a number. -/
inductive GoError where
  | EOF
  | errorString (s : List Byte)
  | sys (code : Nat)
  deriving DecidableEq, Repr

/-- A buffered Go channel `make(chan α, cap)`. -/
structure Chan (α : Type) where
  cap : Nat
  queue : List α
  deriving DecidableEq, Repr

/-- Channel send `c <- v`: `none` when the buffer is full (the sender parks). -/
def Chan.send {α : Type} (c : Chan α) (v : α) : Option (Chan α) :=
  if c.queue.length < c.cap then some { c with queue := c.queue ++ [v] } else none

/-- Channel receive `<-c`: `none` when the buffer is empty (the case is not ready). -/
def Chan.recv {α : Type} (c : Chan α) : Option (α × Chan α) :=
  match c.queue with
  | [] => none
  | v :: q => some (v, { c with queue := q })

/-- Send on a channel variable that may be `nil`; a send on a `nil` channel never completes. -/
def chanSend {α : Type} (c : Option (Chan α)) (v : α) : Option (Option (Chan α)) :=
  match c with
  | none => none
  | some ch => (ch.send v).map some

/-- Receive on a channel variable that may be `nil`; a `nil` channel is never ready. -/
def chanRecv {α : Type} (c : Option (Chan α)) : Option (α × Option (Chan α)) :=
  match c with
  | none => none
  | some ch => (ch.recv).map fun r => (r.1, some r.2)

/-- The unread contents of a `bytes.Buffer`. -/
structure Buffer where
  data : List Byte
  deriving DecidableEq, Repr

/-- `bytes.Buffer.Write`: appends at the tail; the returned error is always `nil`. -/
def Buffer.Write (b : Buffer) (p : List Byte) : Buffer × Nat × Option GoError :=
  ({ data := b.data ++ p }, p.length, none)

/-- `bytes.Buffer.Next(n)`: the next `n` unread bytes (all of them when fewer
remain), which it marks as read. -/
def Buffer.Next (b : Buffer) (n : Nat) : List Byte × Buffer :=
  (b.data.take n, { data := b.data.drop n })

/-- `bytes.Buffer.Bytes`. -/
def Buffer.Bytes (b : Buffer) : List Byte := b.data

/-! ## iexec.go: the byte channel -/

/-- Source constant `minRead`. -/
def minRead : Nat := 4096

/-- Source `type stdio struct { buf bytes.Buffer; ready chan error }`. -/
structure stdio where
  buf : Buffer
  ready : Option (Chan (Option GoError))
  deriving DecidableEq, Repr

/-- Source `newStdio`: an empty buffer and a readiness channel of capacity 10. -/
def newStdio : stdio :=
  { buf := { data := [] }, ready := some { cap := 10, queue := [] } }

/-- The `for` loop of `readAll`: `b` is the chunk just taken, `res` the
accumulated result, `buf` the buffer after that `Next`. -/
def readAllLoop (buf : Buffer) (res b : List Byte) : List Byte × Buffer :=
  if 0 < b.length then
    readAllLoop (buf.Next minRead).2 (res ++ b) (buf.Next minRead).1
  else
    (res, buf)
termination_by buf.data.length + b.length
decreasing_by
  simp only [Buffer.Next, List.length_take, List.length_drop]
  omega

/-- Source `stdio.readAll`: drains the buffer by chunks of `minRead` bytes. -/
def stdio.readAll (p : stdio) : List Byte × stdio :=
  let r := readAllLoop (p.buf.Next minRead).2 [] (p.buf.Next minRead).1
  (r.1, { p with buf := r.2 })

/-- Source `stdio.Write`: appends to the buffer, then posts one readiness token
when the channel is not `nil`. The second component is `none` while the call is
parked on the send; the buffer append has happened by then. -/
def stdio.Write (p : stdio) (b : List Byte) : stdio × Option (Nat × Option GoError) :=
  let w := p.buf.Write b
  let p1 : stdio := { p with buf := w.1 }
  match p1.ready with
  | some ch =>
    match ch.send w.2.2 with
    | some ch1 => ({ p1 with ready := some ch1 }, some (w.2.1, w.2.2))
    | none => (p1, none)
  | none => (p1, some (w.2.1, w.2.2))

/-- State of the child process behind `proc *exec.Cmd`. -/
inductive ProcState where
  | starting
  | running
  | exited (status : Int)
  deriving DecidableEq, Repr

/-- Source `type processContext struct`. -/
structure processContext where
  proc : ProcState
  stdin : stdio
  stdout : stdio
  stderr : stdio
  cancel : Chan Unit
  deriving DecidableEq, Repr

/-- Source `processContext.Send`: writes the bytes of `s` to the stdin buffer
and, when that write reports no error, posts its (nil) error as a readiness
token. The second component is `none` while the call is parked on the send,
otherwise the returned error. -/
def processContext.Send (p : processContext) (s : List Byte) :
    processContext × Option (Option GoError) :=
  let w := p.stdin.buf.Write s
  let p1 : processContext := { p with stdin := { p.stdin with buf := w.1 } }
  match w.2.2 with
  | some err => (p1, some (some err))
  | none =>
    match chanSend p1.stdin.ready w.2.2 with
    | some ch => ({ p1 with stdin := { p1.stdin with ready := ch } }, some none)
    | none => (p1, none)

/-- Source `processContext.Cancel`: posts one token on the cancel channel;
`none` while the call is parked because a token is already pending. -/
def processContext.Cancel (p : processContext) : Option processContext :=
  (p.cancel.send ()).map fun c => { p with cancel := c }

/-- One step of a history on the stdin channel of a controller: a producer
calling `p.stdin.Write(b)`, a producer calling `p.Send(s)`, or the consumer
receiving one readiness token (`<-p.stdin.ready`). -/
inductive ChanOp where
  | write (b : List Byte)
  | send (s : List Byte)
  | recvReady
  deriving DecidableEq, Repr

/-- The bytes an operation appends. -/
def ChanOp.payload : ChanOp → List Byte
  | .write b => b
  | .send s => s
  | .recvReady => []

/-- Runs the operations one after the other, each to completion; `none` when
one of them cannot complete (a send on a full or nil channel, a receive with
no token pending). -/
def runOps : processContext → List ChanOp → Option processContext
  | p, [] => some p
  | p, .write b :: ops =>
    match p.stdin.Write b with
    | (q, some _) => runOps { p with stdin := q } ops
    | (_, none) => none
  | p, .send s :: ops =>
    match p.Send s with
    | (q, some _) => runOps q ops
    | (_, none) => none
  | p, .recvReady :: ops =>
    match chanRecv p.stdin.ready with
    | some r => runOps { p with stdin := { p.stdin with ready := r.2 } } ops
    | none => none

/-- The bytes appended by a history, in the order of its operations. -/
def appended : List ChanOp → List Byte
  | [] => []
  | op :: ops => op.payload ++ appended ops

/-- Source `InteractiveExec`, the fields it sets: three fresh byte channels and
a cancel channel of capacity 1. -/
def InteractiveExec (proc : ProcState) : processContext :=
  { proc := proc, stdin := newStdio, stdout := newStdio, stderr := newStdio,
    cancel := { cap := 1, queue := [] } }

/-- A history of twelve appends with two tokens taken in between. -/
def demoOps : List ChanOp :=
  [.write [1], .send [2, 3], .recvReady, .recvReady] ++ List.replicate 10 (.write [7])

/-- The controller `demoOps` leads to from a fresh one. -/
def demoAfter : processContext :=
  { proc := .running,
    stdin := { buf := { data := [1, 2, 3] ++ List.replicate 10 7 },
               ready := some { cap := 10, queue := List.replicate 10 none } },
    stdout := newStdio, stderr := newStdio, cancel := { cap := 1, queue := [] } }

/-! ## iexec.go: the output pump -/

/-- What one call `r.Read(b)` of the OS stream returned: the bytes `b[:readSize]`
and the error. -/
structure ReadResult where
  chunk : List Byte
  err : Option GoError
  deriving DecidableEq, Repr

/-- An operation a pump performs on its byte channel: `p.buf.Write(b)` or
`p.ready <- tok`. -/
inductive Effect where
  | bufWrite (b : List Byte)
  | post (tok : Option GoError)
  deriving DecidableEq, Repr

/-- How a run of the pump stands at the end of a schedule: it is in or before
a call of `Read`, it is parked on the send `p.ready <- err`, it has returned, it
has panicked, or the schedule cannot happen. -/
inductive PumpEnd where
  | reading
  | parked
  | returned (n : Int) (err : Option GoError)
  | panicked
  | impossible
  deriving DecidableEq, Repr

/-- Two's-complement wrap of an `int64` sum. -/
def wrapInt64 (x : Int) : Int := (x + 2 ^ 63) % 2 ^ 64 - 2 ^ 63

/-- One step of a schedule of the pump and its consumer: the pump's call
`r.Read(b)` returns, the consumer receives one readiness token
(`<-p.ready`), or the consumer drains the buffer (`readAll`). -/
inductive PumpStep where
  | read (r : ReadResult)
  | take
  | drain
  deriving DecidableEq, Repr

/-- Where a run of the pump has got to: the byte channel, the operations the
pump has performed on it so far in program order, and how the call stands. -/
structure PumpRun where
  p : stdio
  log : List Effect
  status : PumpEnd
  deriving DecidableEq, Repr

/-- The loop of `ReadFrom` run against a schedule. `n` is the byte counter;
`pend` is `some err` while the pump is parked on `p.ready <- err` (the channel
was full, or is nil), and the send then completes when a `take` of the consumer
leaves room. A `read` step while the pump is parked and a `take` on an empty
channel cannot happen. Slicing `b[:readSize]` beyond the 4096 bytes of `b`
panics. -/
def pumpLoop (p : stdio) (n : Int) (pend : Option (Option GoError)) (log : List Effect) :
    List PumpStep → PumpRun
  | [] =>
    match pend with
    | none => { p := p, log := log, status := .reading }
    | some _ => { p := p, log := log, status := .parked }
  | .drain :: ss => pumpLoop p.readAll.2 n pend log ss
  | .take :: ss =>
    match chanRecv p.ready with
    | none => { p := p, log := log, status := .impossible }
    | some tok =>
      match pend with
      | none => pumpLoop { p with ready := tok.2 } n none log ss
      | some err =>
        match chanSend tok.2 err with
        | none => pumpLoop { p with ready := tok.2 } n pend log ss
        | some ch =>
          match err with
          | some e =>
            { p := { p with ready := ch }, log := log ++ [.post err],
              status := if e = GoError.EOF then .returned n none else .returned n (some e) }
          | none => pumpLoop { p with ready := ch } n none (log ++ [.post err]) ss
  | .read r :: ss =>
    match pend with
    | some _ => { p := p, log := log, status := .impossible }
    | none =>
      if minRead < r.chunk.length then { p := p, log := log, status := .panicked }
      else
        let n1 := wrapInt64 (n + r.chunk.length)
        let p1 : stdio :=
          if 0 < r.chunk.length then { p with buf := (p.buf.Write r.chunk).1 } else p
        let log1 := if 0 < r.chunk.length then log ++ [Effect.bufWrite r.chunk] else log
        match chanSend p1.ready r.err with
        | none => pumpLoop p1 n1 (some r.err) log1 ss
        | some ch =>
          match r.err with
          | some e =>
            { p := { p1 with ready := ch }, log := log1 ++ [.post r.err],
              status := if e = GoError.EOF then .returned n1 none else .returned n1 (some e) }
          | none => pumpLoop { p1 with ready := ch } n1 none (log1 ++ [.post r.err]) ss

/-- Source `stdio.ReadFrom` (`n` starts at 0, nothing is pending) on the byte
channel `p`, run against a schedule of its reads and of the consumer. -/
def stdio.ReadFrom (p : stdio) (sched : List PumpStep) : PumpRun :=
  pumpLoop p 0 none [] sched

/-- The results of `Read` in a schedule, in order. -/
def readsOf : List PumpStep → List ReadResult
  | [] => []
  | .read r :: ss => r :: readsOf ss
  | _ :: ss => readsOf ss

/-- The consumer keeps up with the pump on a channel of capacity `c`. `k`
counts the tokens outstanding (those queued, plus the one of a parked send):
a `Read` returns only while the pump is not parked (`k ≤ c`), the consumer
takes a token only when one is outstanding, and the schedule does not end with
the pump parked. -/
def keepsUp (c : Nat) : Nat → List PumpStep → Bool
  | k, [] => decide (k ≤ c)
  | k, .read _ :: ss => decide (k ≤ c) && keepsUp c (k + 1) ss
  | k, .take :: ss => decide (1 ≤ k) && keepsUp c (k - 1) ss
  | k, .drain :: ss => keepsUp c k ss

/-- The send a parked pump still has to complete. -/
def pendPost : Option (Option GoError) → List Effect
  | none => []
  | some err => [.post err]

/-- Closed form used to state the lemmas on `pumpLoop`: the operations of the
pump, and its result, when no send is left parked. -/
def pumpTrace (n : Int) : List ReadResult → List Effect × PumpEnd
  | [] => ([], .reading)
  | r :: rest =>
    let n1 := wrapInt64 (n + r.chunk.length)
    if minRead < r.chunk.length then ([], .panicked)
    else
      let w := if 0 < r.chunk.length then [Effect.bufWrite r.chunk] else []
      match r.err with
      | some e =>
        if e = GoError.EOF then (w ++ [.post r.err], .returned n1 none)
        else (w ++ [.post r.err], .returned n1 (some e))
      | none =>
        let k := pumpTrace n1 rest
        (w ++ [.post r.err] ++ k.1, k.2)

/-- Performs one pump operation on a byte channel; `none` when the token cannot
be posted (channel full or nil). -/
def stdio.apply (p : stdio) : Effect → Option stdio
  | .bufWrite b => some { p with buf := (p.buf.Write b).1 }
  | .post tok => (chanSend p.ready tok).map fun ch => { p with ready := ch }

/-- The byte strings appended to the buffer by a list of pump operations. -/
def bufWrites : List Effect → List (List Byte)
  | [] => []
  | .bufWrite b :: es => b :: bufWrites es
  | .post _ :: es => bufWrites es

/-- The readiness tokens posted by a list of pump operations. -/
def tokens : List Effect → List (Option GoError)
  | [] => []
  | .bufWrite _ :: es => tokens es
  | .post t :: es => t :: tokens es

/-- Every buffer append is directly followed by the posting of a token. -/
def paired : List Effect → Bool
  | [] => true
  | .post _ :: es => paired es
  | .bufWrite _ :: .post t :: es => paired (.post t :: es)
  | .bufWrite _ :: _ => false

/-- Total number of bytes returned by a list of reads. -/
def totalRead : List ReadResult → Int
  | [] => 0
  | r :: rs => r.chunk.length + totalRead rs

/-- Concatenation of the chunks returned by a list of reads. -/
def allChunks : List ReadResult → List Byte
  | [] => []
  | r :: rs => r.chunk ++ allChunks rs

/-- Concatenation of a list of byte strings. -/
def concatBytes : List (List Byte) → List Byte
  | [] => []
  | b :: bs => b ++ concatBytes bs

/-- Eleven reads without error followed by end of stream. -/
def demoReads : List ReadResult :=
  List.replicate 10 ⟨[7], none⟩ ++ [⟨[], none⟩]

/-- A schedule on a fresh channel: ten reads fill the readiness channel, the
eleventh parks the pump until the consumer takes a token, and so does the
last, which carries the end of stream. -/
def demoSched : List PumpStep :=
  List.replicate 10 (.read ⟨[7], none⟩) ++
    [.read ⟨[], none⟩, .take, .read ⟨[3], some GoError.EOF⟩, .take]

/-! ## iexec.go: the receive loop -/

/-- Source `type Reader interface`; `σ` is the state of the implementation. -/
structure Reader (σ : Type) where
  OnData : σ → List Byte → Bool × σ
  OnError : σ → List Byte → Bool × σ
  OnTimeout : σ → σ

/-- A callback invocation made by `Receive`. -/
inductive Call where
  | OnData (b : List Byte)
  | OnError (b : List Byte)
  | OnTimeout
  deriving DecidableEq, Repr

/-- The four cases of the `select` in `Receive`. -/
inductive Case where
  | timer
  | stdout
  | stderr
  | cancel
  deriving DecidableEq, Repr

/-- One wake-up of the loop: the clock when the `select` is entered and
`time.After(timeout)` is armed, the clock when the chosen case proceeds, the
case chosen, and the reading of `time.Now()` after the dispatch. -/
structure Wake where
  armed : Int
  woke : Int
  pick : Case
  now : Int
  deriving DecidableEq, Repr

/-- The two output streams. -/
inductive Stream where
  | out
  | err
  deriving DecidableEq, Repr

/-- What happens while a `Receive` call is in progress: a pump operation on the
stdout or stderr channel, a call of `Cancel`, or a wake-up of the loop. -/
inductive Event where
  | pump (s : Stream) (e : Effect)
  | cancel
  | wake (w : Wake)
  deriving DecidableEq, Repr

/-- The variables of a `Receive` call (`p`, the reader state, `t`, `deadline`,
`timeout`, `stop`), with two records kept for the proofs: the callbacks invoked
so far with the clock of their wake-up, and for each `select` entered the
values of `t` and `timeout` it was entered with. -/
structure RecvState (σ : Type) where
  p : processContext
  rs : σ
  t : Int
  deadline : Int
  timeout : Int
  stop : Bool
  calls : List (Int × Call)
  waits : List (Int × Int)

/-- A pump operation applied to the stream it belongs to. -/
def processContext.pump (p : processContext) (s : Stream) (e : Effect) : Option processContext :=
  match s with
  | .out => (p.stdout.apply e).map fun q => { p with stdout := q }
  | .err => (p.stderr.apply e).map fun q => { p with stderr := q }

/-- The `select` statement of `Receive` with the body of the chosen case.
`none` when the wake-up cannot happen in this state: the clock runs backwards,
the timer case is chosen before `timeout` has elapsed since it was armed, or
the chosen channel holds no token. -/
def selectStep {σ : Type} (stdReader : Option (Reader σ)) (st : RecvState σ) (w : Wake) :
    Option (RecvState σ) :=
  if st.t ≤ w.armed ∧ w.armed ≤ w.woke ∧ w.woke ≤ w.now then
    let st0 : RecvState σ := { st with waits := st.waits ++ [(st.t, st.timeout)] }
    match w.pick with
    | .timer =>
      if w.armed + st0.timeout ≤ w.woke then
        match stdReader with
        | some rd =>
          some { st0 with rs := rd.OnTimeout st0.rs,
                          calls := st0.calls ++ [(w.woke, Call.OnTimeout)],
                          stop := true }
        | none => some { st0 with stop := true }
      else none
    | .stdout =>
      match chanRecv st0.p.stdout.ready with
      | none => none
      | some tok =>
        let r := stdio.readAll { st0.p.stdout with ready := tok.2 }
        let st1 : RecvState σ := { st0 with p := { st0.p with stdout := r.2 } }
        if 0 < r.1.length then
          match stdReader with
          | some rd =>
            some { st1 with rs := (rd.OnData st1.rs r.1).2,
                            calls := st1.calls ++ [(w.woke, Call.OnData r.1)],
                            stop := (rd.OnData st1.rs r.1).1 }
          | none => some st1
        else some st1
    | .stderr =>
      match chanRecv st0.p.stderr.ready with
      | none => none
      | some tok =>
        let r := stdio.readAll { st0.p.stderr with ready := tok.2 }
        let st1 : RecvState σ := { st0 with p := { st0.p with stderr := r.2 } }
        if 0 < r.1.length then
          match stdReader with
          | some rd =>
            some { st1 with rs := (rd.OnError st1.rs r.1).2,
                            calls := st1.calls ++ [(w.woke, Call.OnError r.1)],
                            stop := (rd.OnError st1.rs r.1).1 }
          | none => some st1
        else some st1
    | .cancel =>
      match st0.p.cancel.recv with
      | none => none
      | some tok => some { st0 with p := { st0.p with cancel := tok.2 }, stop := true }
  else none

/-- Lines 99 to 104 of `Receive`: `t = time.Now()`, then either `stop = true`
when `t` is after the deadline or `timeout = deadline.Sub(t)`. -/
def deadlineStep {σ : Type} (st : RecvState σ) (now : Int) : RecvState σ :=
  if st.deadline < now then { st with t := now, stop := true }
  else { st with t := now, timeout := st.deadline - now }

/-- How a `Receive` call stands after a schedule: it has returned (with the
events it left unconsumed), it is still waiting, or the schedule cannot
happen. -/
inductive Outcome (σ : Type) where
  | returned (st : RecvState σ) (rest : List Event)
  | waiting (st : RecvState σ)
  | invalid

/-- The `for` loop of `Receive` run against a schedule. -/
def recvLoop {σ : Type} (stdReader : Option (Reader σ)) : RecvState σ → List Event → Outcome σ
  | st, [] => .waiting st
  | st, .pump s e :: es =>
    match st.p.pump s e with
    | none => .invalid
    | some q => recvLoop stdReader { st with p := q } es
  | st, .cancel :: es =>
    match st.p.Cancel with
    | none => .invalid
    | some q => recvLoop stdReader { st with p := q } es
  | st, .wake w :: es =>
    match selectStep stdReader st w with
    | none => .invalid
    | some st1 =>
      if (deadlineStep st1 w.now).stop then .returned (deadlineStep st1 w.now) es
      else recvLoop stdReader (deadlineStep st1 w.now) es

/-- The variables of `Receive` when the loop is first entered; `start` is the
reading of `time.Now()` at the top of the call. -/
def recvInit {σ : Type} (p : processContext) (rs : σ) (timeout start : Int) : RecvState σ :=
  { p := p, rs := rs, t := start, deadline := start + timeout, timeout := timeout,
    stop := false, calls := [], waits := [] }

/-- Source `processContext.Receive`, run against a schedule. -/
def processContext.Receive {σ : Type} (p : processContext) (stdReader : Option (Reader σ))
    (rs : σ) (timeout start : Int) (tr : List Event) : Outcome σ :=
  recvLoop stdReader (recvInit p rs timeout start) tr

/-- The events of a schedule that precede the first wake-up, applied to the
controller; `none` when one of them cannot happen or a wake-up is met. -/
def envRun : processContext → List Event → Option processContext
  | p, [] => some p
  | p, .pump s e :: es =>
    match p.pump s e with
    | none => none
    | some q => envRun q es
  | p, .cancel :: es =>
    match p.Cancel with
    | none => none
    | some q => envRun q es
  | _, .wake _ :: _ => none

/-- The event is a buffer append by a pump: it brings no token. -/
def Event.isBufWrite : Event → Bool
  | .pump _ (.bufWrite _) => true
  | _ => false

/-- The `select` case that serves a stream. -/
def Stream.case : Stream → Case
  | .out => .stdout
  | .err => .stderr

/-- The byte channel of a stream. -/
def processContext.chan (p : processContext) : Stream → stdio
  | .out => p.stdout
  | .err => p.stderr

/-- The callback that receives the bytes of a stream. -/
def Reader.callback {σ : Type} (rd : Reader σ) : Stream → σ → List Byte → Bool × σ
  | .out => rd.OnData
  | .err => rd.OnError

/-- The record of a callback invocation for a stream. -/
def Call.data : Stream → List Byte → Call
  | .out, b => .OnData b
  | .err, b => .OnError b

/-- The other output stream. -/
def Stream.other : Stream → Stream
  | .out => .err
  | .err => .out

/-- Replaces the byte channel of a stream. -/
def processContext.setChan (p : processContext) (s : Stream) (q : stdio) : processContext :=
  match s with
  | .out => { p with stdout := q }
  | .err => { p with stderr := q }

/-- Closed form of a stream case of `selectStep`, used to state its lemmas: the
state after the token is taken (leaving `ready`), the buffer drained and the
callback, if any, invoked. -/
def afterDrain {σ : Type} (stdReader : Option (Reader σ)) (st : RecvState σ) (w : Wake)
    (s : Stream) (ready : Option (Chan (Option GoError))) : RecvState σ :=
  let b := (st.p.chan s).buf.data
  let base : RecvState σ :=
    { st with waits := st.waits ++ [(st.t, st.timeout)],
              p := st.p.setChan s { buf := { data := [] }, ready := ready } }
  match stdReader with
  | some rd =>
    if 0 < b.length then
      { base with rs := (rd.callback s st.rs b).2,
                  calls := st.calls ++ [(w.woke, Call.data s b)],
                  stop := (rd.callback s st.rs b).1 }
    else base
  | none => base

/-- The callbacks recorded in an outcome, when the call has returned. -/
def Outcome.returnedCalls {σ : Type} : Outcome σ → Option (List (Int × Call))
  | .returned st _ => some st.calls
  | _ => none

/-- The waits recorded in an outcome, when the call has returned. -/
def Outcome.returnedWaits {σ : Type} : Outcome σ → Option (List (Int × Int))
  | .returned st _ => some st.waits
  | _ => none

/-- A reader that never asks to stop. -/
def quietReader : Reader Unit :=
  { OnData := fun _ _ => (false, ()), OnError := fun _ _ => (false, ()), OnTimeout := fun _ => () }

/-- A reader that asks to stop at the first chunk of either stream. -/
def stopReader : Reader Unit :=
  { OnData := fun _ _ => (true, ()), OnError := fun _ _ => (true, ()), OnTimeout := fun _ => () }

/-- A running controller whose stdout channel holds one byte and one token. -/
def dataCtx : processContext :=
  { proc := .running, stdin := newStdio,
    stdout := { buf := { data := [1] }, ready := some { cap := 10, queue := [none] } },
    stderr := newStdio, cancel := { cap := 1, queue := [] } }

/-- The controller `dataCtx` after a call of `Cancel`. -/
def cancelledCtx : processContext :=
  { proc := .running, stdin := newStdio,
    stdout := { buf := { data := [1] }, ready := some { cap := 10, queue := [none] } },
    stderr := newStdio, cancel := { cap := 1, queue := [()] } }

/-- What the operating system does for one `TimeoutedExec` call: the result of
`c.Start()`, whether the timer case of the `select` is the one that fires, the
exit status and the error of `Process.Wait`, and the contents of the two
capture buffers when they are read. -/
structure ExecRun where
  startErr : Option GoError
  timedOut : Bool
  exitStatus : Int
  waitErr : Option GoError
  stdout : List Byte
  stderr : List Byte
  deriving DecidableEq, Repr

/-- Source `TimeoutedExec`: the returned string and error. -/
def TimeoutedExec (run : ExecRun) : List Byte × Option GoError :=
  match run.startErr with
  | some err => ([], some err)
  | none =>
    let stdout : Buffer := { data := run.stdout }
    let stderr : Buffer := { data := run.stderr }
    let res := stdout.Bytes
    let err := stderr.Bytes
    if 0 < err.length then (res, some (GoError.errorString err))
    else (res, none)

/-! ## Properties of the byte channel -/

theorem readAllLoop_drains (n : Nat) : ∀ (buf : Buffer) (res b : List Byte),
    buf.data.length + b.length ≤ n → (b = [] → buf.data = []) →
    readAllLoop buf res b = (res ++ b ++ buf.data, { data := [] }) := by
  induction n with
  | zero =>
    intro buf res b hn _
    have hb : b = [] := List.length_eq_zero.mp (by omega)
    have hd : buf.data = [] := List.length_eq_zero.mp (by omega)
    rw [readAllLoop]
    cases buf
    simp_all
  | succ n ih =>
    intro buf res b hn hinv
    rw [readAllLoop]
    by_cases hb : 0 < b.length
    · rw [if_pos hb]
      rw [ih]
      · simp [Buffer.Next, List.append_assoc]
      · simp only [Buffer.Next, List.length_take, List.length_drop]
        omega
      · intro h
        simp only [Buffer.Next] at h ⊢
        have : buf.data = [] := by
          rcases List.take_eq_nil_iff.mp h with h1 | h1
          · simp [minRead] at h1
          · exact h1
        simp [this]
    · rw [if_neg hb]
      have hb0 : b = [] := List.length_eq_zero.mp (by omega)
      have hd := hinv hb0
      cases buf
      simp_all

theorem readAll_eq (p : stdio) :
    p.readAll = (p.buf.data, { p with buf := { data := [] } }) := by
  unfold stdio.readAll
  rw [readAllLoop_drains _ _ _ _ (le_refl _)]
  · simp [Buffer.Next]
  · intro h
    simp only [Buffer.Next] at h ⊢
    rcases List.take_eq_nil_iff.mp h with h1 | h1
    · simp [minRead] at h1
    · simp [h1]

theorem Write_buf (p : stdio) (b : List Byte) :
    (p.Write b).1.buf.data = p.buf.data ++ b := by
  simp only [stdio.Write, Buffer.Write]
  split
  · split <;> rfl
  · rfl

theorem Send_buf (p : processContext) (s : List Byte) :
    (p.Send s).1.stdin.buf.data = p.stdin.buf.data ++ s := by
  unfold processContext.Send
  simp only [Buffer.Write]
  cases hs : chanSend p.stdin.ready (none : Option GoError) <;> simp [hs]

theorem runOps_buf : ∀ (ops : List ChanOp) (p q : processContext),
    runOps p ops = some q → q.stdin.buf.data = p.stdin.buf.data ++ appended ops := by
  intro ops
  induction ops with
  | nil =>
    intro p q h
    simp only [runOps, Option.some.injEq] at h
    simp [← h, appended]
  | cons op ops ih =>
    intro p q h
    cases op with
    | write b =>
      simp only [runOps] at h
      have hb := Write_buf p.stdin b
      revert h hb
      rcases p.stdin.Write b with ⟨w, _ | r⟩
      · simp
      · intro h hb
        have := ih _ _ h
        dsimp only at hb this
        simp [this, hb, appended, ChanOp.payload]
    | send s =>
      simp only [runOps] at h
      have hb := Send_buf p s
      revert h hb
      rcases p.Send s with ⟨w, _ | r⟩
      · simp
      · intro h hb
        have := ih _ _ h
        dsimp only at hb this
        simp [this, hb, appended, ChanOp.payload]
    | recvReady =>
      simp only [runOps] at h
      cases hr : chanRecv p.stdin.ready with
      | none => simp [hr] at h
      | some r =>
        simp only [hr] at h
        have := ih _ _ h
        simp [this, appended, ChanOp.payload]

/-- C1. Byte channel round trip: after any history of non-empty appends
(`stdio.Write` or `Send`, with the consumer taking readiness tokens in between)
run to completion on a channel whose buffer starts empty, `readAll` returns
exactly the appended bytes in append order and empties the buffer, and a
repeated `readAll` returns the empty byte string; the readiness channel is
left as it was. No bound on the total length is assumed. -/
theorem readAll_round_trip (p q : processContext) (ops : List ChanOp)
    (hempty : p.stdin.buf.data = [])
    (_hne : ∀ op ∈ ops, op ≠ ChanOp.recvReady → op.payload ≠ [])
    (hrun : runOps p ops = some q) :
    q.stdin.readAll.1 = appended ops ∧
    q.stdin.readAll.2.buf.data = [] ∧
    q.stdin.readAll.2.ready = q.stdin.ready ∧
    q.stdin.readAll.2.readAll.1 = [] := by
  have hb := runOps_buf ops p q hrun
  rw [hempty, List.nil_append] at hb
  simp [readAll_eq, hb]

/-- Witness for C1: twelve appends (more than the capacity of the readiness
channel) with two tokens taken in between, on a fresh controller. -/
theorem readAll_round_trip_witness :
    runOps (InteractiveExec ProcState.running) demoOps = some demoAfter ∧
    demoAfter.stdin.readAll.1 = [1, 2, 3] ++ List.replicate 10 7 :=
  ⟨by decide,
   (readAll_round_trip (InteractiveExec ProcState.running) demoAfter demoOps
      (by decide) (by decide) (by decide)).1⟩

/-! ## Properties of `Send` and of the one-shot helper -/

/-- C5. Result contract of `TimeoutedExec`: a launch failure gives the empty
string and the launch error; after a successful launch the string is the
captured stdout, and the error is non-nil exactly when the captured stderr is
non-empty, in which case it is `errors.New` of that stderr text; the exit
status, the error of `Wait` and whether the timeout fired play no part. -/
theorem TimeoutedExec_contract (run : ExecRun) :
    (∀ e, run.startErr = some e → TimeoutedExec run = ([], some e)) ∧
    (run.startErr = none →
      (TimeoutedExec run).1 = run.stdout ∧
      ((TimeoutedExec run).2 ≠ none ↔ run.stderr ≠ []) ∧
      (run.stderr ≠ [] → (TimeoutedExec run).2 = some (GoError.errorString run.stderr)) ∧
      (∀ (timedOut : Bool) (status : Int) (werr : Option GoError),
        TimeoutedExec { run with timedOut := timedOut, exitStatus := status, waitErr := werr } =
          TimeoutedExec run)) := by
  refine ⟨?_, ?_⟩
  · intro e he
    simp [TimeoutedExec, he]
  · intro hs
    have hlen : 0 < run.stderr.length ↔ run.stderr ≠ [] := List.length_pos
    by_cases h : run.stderr = []
    · simp [TimeoutedExec, hs, Buffer.Bytes, h]
    · have h1 : 0 < run.stderr.length := hlen.mpr h
      simp [TimeoutedExec, hs, Buffer.Bytes, h, h1]

/-- C6, as stated, fails: on a controller whose child has exited with status 0,
`Send("hi")` returns nil. -/
theorem Send_exited_succeeds :
    (InteractiveExec (ProcState.exited 0)).proc = ProcState.exited 0 ∧
    ((InteractiveExec (ProcState.exited 0)).Send [104, 105]).2 = some none := by
  decide

/-- C6, amended. `Send` never consults the child process: in every state of
the process it returns no failure; it appends the bytes of `s` to the stdin
buffer, leaves the process handle as it is and, when the readiness channel has
room, posts one nil token and returns nil. -/
theorem Send_never_fails (p : processContext) (s : List Byte) :
    (∀ e, (p.Send s).2 ≠ some (some e)) ∧
    (p.Send s).1.stdin.buf.data = p.stdin.buf.data ++ s ∧
    (p.Send s).1.proc = p.proc ∧
    (∀ ch, p.stdin.ready = some ch → ch.queue.length < ch.cap →
      p.Send s =
        ({ p with stdin := { buf := { data := p.stdin.buf.data ++ s },
                             ready := some { ch with queue := ch.queue ++ [none] } } },
          some none)) := by
  refine ⟨?_, Send_buf p s, ?_, ?_⟩
  · intro e
    simp only [processContext.Send, Buffer.Write]
    split <;> simp
  · simp only [processContext.Send, Buffer.Write]
    split <;> rfl
  · intro ch hch hroom
    simp [processContext.Send, Buffer.Write, hch, chanSend, Chan.send, hroom]

/-! ## Properties of the output pump -/

theorem wrapInt64_id (x : Int) (h0 : 0 ≤ x) (h1 : x < 2 ^ 63) : wrapInt64 x = x := by
  unfold wrapInt64
  rw [Int.emod_eq_of_lt (by omega) (by omega)]
  omega

theorem totalRead_nonneg : ∀ rs : List ReadResult, 0 ≤ totalRead rs
  | [] => by simp [totalRead]
  | r :: rs => by
    have := totalRead_nonneg rs
    simp only [totalRead]
    omega

theorem bufWrites_append (a b : List Effect) : bufWrites (a ++ b) = bufWrites a ++ bufWrites b := by
  induction a with
  | nil => rfl
  | cons e es ih => cases e <;> simp [bufWrites, ih]

theorem tokens_append (a b : List Effect) : tokens (a ++ b) = tokens a ++ tokens b := by
  induction a with
  | nil => rfl
  | cons e es ih => cases e <;> simp [tokens, ih]

theorem pumpTrace_cons_nil (n : Int) (r : ReadResult) (rest : List ReadResult)
    (hl : ¬ minRead < r.chunk.length) (hr : r.err = none) :
    pumpTrace n (r :: rest) =
      ((if 0 < r.chunk.length then [Effect.bufWrite r.chunk] else []) ++ [Effect.post none] ++
          (pumpTrace (wrapInt64 (n + r.chunk.length)) rest).1,
        (pumpTrace (wrapInt64 (n + r.chunk.length)) rest).2) := by
  simp [pumpTrace, hl, hr]

theorem pumpTrace_last (n : Int) (r : ReadResult) (e : GoError)
    (hl : ¬ minRead < r.chunk.length) (hr : r.err = some e) :
    pumpTrace n [r] =
      ((if 0 < r.chunk.length then [Effect.bufWrite r.chunk] else []) ++ [Effect.post (some e)],
        PumpEnd.returned (wrapInt64 (n + r.chunk.length))
          (if e = GoError.EOF then none else some e)) := by
  by_cases he : e = GoError.EOF <;> simp [pumpTrace, hl, hr, he]

theorem pumpTrace_run : ∀ (pre : List ReadResult) (n : Int) (last : ReadResult) (e : GoError),
    (∀ r ∈ pre, r.err = none) → last.err = some e →
    (∀ r ∈ pre ++ [last], r.chunk.length ≤ minRead) →
    0 ≤ n → n + totalRead (pre ++ [last]) < 2 ^ 63 →
    bufWrites (pumpTrace n (pre ++ [last])).1 =
      ((pre ++ [last]).map fun r => r.chunk).filter (fun c => !c.isEmpty) ∧
    tokens (pumpTrace n (pre ++ [last])).1 = List.replicate pre.length none ++ [some e] ∧
    paired (pumpTrace n (pre ++ [last])).1 = true ∧
    (pumpTrace n (pre ++ [last])).2 =
      PumpEnd.returned (n + totalRead (pre ++ [last])) (if e = GoError.EOF then none else some e) ∧
    (∃ l, (pumpTrace n (pre ++ [last])).1 = l ++ [Effect.post (some e)]) := by
  intro pre
  induction pre with
  | nil =>
    intro n last e _ hlast hlen hn htot
    have hl : ¬ minRead < last.chunk.length := by
      have := hlen last (by simp)
      omega
    have hone : totalRead [last] = last.chunk.length := by simp [totalRead]
    rw [List.nil_append, hone] at htot
    have hw : wrapInt64 (n + last.chunk.length) = n + last.chunk.length :=
      wrapInt64_id _ (by omega) htot
    rw [List.nil_append, pumpTrace_last n last e hl hlast, hw, hone]
    by_cases hc : 0 < last.chunk.length
    · have hne : last.chunk ≠ [] := List.length_pos.mp hc
      simp only [hc, if_true]
      refine ⟨?_, ?_, ?_, ?_, [Effect.bufWrite last.chunk], rfl⟩ <;>
        simp [bufWrites, tokens, paired, hne]
    · have hnil : last.chunk = [] := List.length_eq_zero.mp (by omega)
      simp only [hc, if_false]
      refine ⟨?_, ?_, ?_, ?_, [], rfl⟩ <;>
        simp [bufWrites, tokens, paired, hnil]
  | cons r pre ih =>
    intro n last e hpre hlast hlen hn htot
    have hr : r.err = none := hpre r (by simp)
    have hl : ¬ minRead < r.chunk.length := by
      have := hlen r (by simp)
      omega
    have htn := totalRead_nonneg (pre ++ [last])
    have hcons : totalRead (r :: pre ++ [last]) = r.chunk.length + totalRead (pre ++ [last]) := rfl
    have hlist : r :: pre ++ [last] = r :: (pre ++ [last]) := rfl
    rw [hcons] at htot
    have hw : wrapInt64 (n + r.chunk.length) = n + r.chunk.length :=
      wrapInt64_id _ (by omega) (by omega)
    obtain ⟨h1, h2, h3, h4, l, h5⟩ := ih (n + r.chunk.length) last e
      (fun x hx => hpre x (by simp [hx])) hlast
      (fun x hx => hlen x (by simp at hx ⊢; tauto)) (by omega) (by omega)
    rw [hcons, hlist, pumpTrace_cons_nil n r _ hl hr, hw]
    refine ⟨?_, ?_, ?_, ?_, ?_⟩
    · rw [bufWrites_append, bufWrites_append, h1]
      by_cases hc : 0 < r.chunk.length
      · have hne : r.chunk ≠ [] := List.length_pos.mp hc
        simp [hc, bufWrites, hne, List.filter_cons]
      · have hnil : r.chunk = [] := List.length_eq_zero.mp (by omega)
        simp [bufWrites, hnil, List.filter_cons]
    · rw [tokens_append, tokens_append, h2]
      by_cases hc : 0 < r.chunk.length <;>
        simp [hc, tokens, List.replicate_succ]
    · by_cases hc : 0 < r.chunk.length <;>
        simp [hc, paired, h3]
    · rw [h4]
      congr 1
      omega
    · refine ⟨(if 0 < r.chunk.length then [Effect.bufWrite r.chunk] else []) ++
        [Effect.post none] ++ l, ?_⟩
      simp [h5]

theorem concat_nonEmpty : ∀ rs : List ReadResult,
    concatBytes ((rs.map fun r => r.chunk).filter (fun c => !c.isEmpty)) = allChunks rs
  | [] => rfl
  | r :: rs => by
    have ih := concat_nonEmpty rs
    by_cases hc : r.chunk = []
    · simp [List.filter_cons, hc, allChunks, ih]
    · simp [List.filter_cons, hc, allChunks, concatBytes, ih]



theorem chanRecv_cons {α : Type} (ch : Chan α) (v : α) (q : List α) (h : ch.queue = v :: q) :
    chanRecv (some ch) = some (v, some { ch with queue := q }) := by
  simp [chanRecv, Chan.recv, h]

theorem chanSend_room {α : Type} (ch : Chan α) (x : α) (h : ch.queue.length < ch.cap) :
    chanSend (some ch) x = some (some { ch with queue := ch.queue ++ [x] }) := by
  simp [chanSend, Chan.send, h]

theorem chanSend_full {α : Type} (ch : Chan α) (x : α) (h : ¬ ch.queue.length < ch.cap) :
    chanSend (some ch) x = none := by
  simp [chanSend, Chan.send, h]

theorem pumpLoop_terminal : ∀ (sched : List PumpStep) (p : stdio)
    (ch : Chan (Option GoError)) (n : Int) (log : List Effect) (e : GoError),
    p.ready = some ch → 0 < ch.cap → ch.queue.length = ch.cap →
    keepsUp ch.cap (ch.cap + 1) sched = true → readsOf sched = [] →
    (pumpLoop p n (some (some e)) log sched).log = log ++ [Effect.post (some e)] ∧
    (pumpLoop p n (some (some e)) log sched).status =
      (if e = GoError.EOF then PumpEnd.returned n none else PumpEnd.returned n (some e)) := by
  intro sched
  induction sched with
  | nil =>
    intro p ch n log e _ _ _ hk _
    simp [keepsUp] at hk
  | cons step ss ih =>
    intro p ch n log e hready hcap hfull hk hreads
    cases step with
    | read r => simp [readsOf] at hreads
    | drain =>
      simp only [keepsUp] at hk
      simp only [readsOf] at hreads
      simp only [pumpLoop]
      exact ih p.readAll.2 ch n log e (by rw [readAll_eq]; exact hready) hcap hfull hk hreads
    | take =>
      obtain ⟨v, q, hq⟩ : ∃ v q, ch.queue = v :: q := by
        cases hc : ch.queue with
        | nil => rw [hc] at hfull; simp at hfull; omega
        | cons v q => exact ⟨v, q, rfl⟩
      have hlen : q.length < ch.cap := by
        rw [hq] at hfull
        simp at hfull
        omega
      have hsend := chanSend_room ({ ch with queue := q } : Chan (Option GoError)) (some e) hlen
      simp [pumpLoop, hready, chanRecv_cons ch v q hq, hsend]

theorem pumpLoop_read (p : stdio) (n : Int) (log : List Effect) (r : ReadResult)
    (ss : List PumpStep) (hl : ¬ minRead < r.chunk.length) :
    ∃ p1 : stdio, p1.ready = p.ready ∧
      pumpLoop p n none log (.read r :: ss) =
        match chanSend p1.ready r.err with
        | none =>
          pumpLoop p1 (wrapInt64 (n + r.chunk.length)) (some r.err)
            (log ++ if 0 < r.chunk.length then [Effect.bufWrite r.chunk] else []) ss
        | some ch =>
          match r.err with
          | some e =>
            { p := { p1 with ready := ch },
              log := (log ++ if 0 < r.chunk.length then [Effect.bufWrite r.chunk] else []) ++
                [.post r.err],
              status := if e = GoError.EOF then .returned (wrapInt64 (n + r.chunk.length)) none
                else .returned (wrapInt64 (n + r.chunk.length)) (some e) }
          | none =>
            pumpLoop { p1 with ready := ch } (wrapInt64 (n + r.chunk.length)) none
              ((log ++ if 0 < r.chunk.length then [Effect.bufWrite r.chunk] else []) ++
                [.post r.err]) ss := by
  by_cases hc : 0 < r.chunk.length
  · exact ⟨{ p with buf := (p.buf.Write r.chunk).1 }, rfl, by simp [pumpLoop, hl, hc]⟩
  · exact ⟨p, rfl, by simp [pumpLoop, hl, hc]⟩

theorem pumpLoop_keepsUp : ∀ (sched : List PumpStep) (p : stdio)
    (ch : Chan (Option GoError)) (n : Int) (log : List Effect) (k : Nat)
    (pre : List ReadResult) (last : ReadResult) (e : GoError) (pend : Option (Option GoError)),
    p.ready = some ch → 0 < ch.cap →
    ((pend = none ∧ ch.queue.length = k ∧ k ≤ ch.cap) ∨
      (pend = some none ∧ ch.queue.length = ch.cap ∧ k = ch.cap + 1)) →
    keepsUp ch.cap k sched = true → readsOf sched = pre ++ [last] →
    (∀ r ∈ pre, r.err = none) → last.err = some e →
    (∀ r ∈ pre ++ [last], r.chunk.length ≤ minRead) →
    0 ≤ n → n + totalRead (pre ++ [last]) < 2 ^ 63 →
    (pumpLoop p n pend log sched).log = log ++ pendPost pend ++ (pumpTrace n (pre ++ [last])).1 ∧
    (pumpLoop p n pend log sched).status = (pumpTrace n (pre ++ [last])).2 := by
  intro sched
  induction sched with
  | nil =>
    intro p ch n log k pre last e pend _ _ _ _ hreads
    simp [readsOf] at hreads
  | cons step ss ih =>
    intro p ch n log k pre last e pend hready hcap hmode hk hreads hpre hlast hlen hn htot
    cases step with
    | drain =>
      simp only [keepsUp] at hk
      simp only [readsOf] at hreads
      simp only [pumpLoop]
      exact ih p.readAll.2 ch n log k pre last e pend (by rw [readAll_eq]; exact hready) hcap
        hmode hk hreads hpre hlast hlen hn htot
    | take =>
      simp only [keepsUp, Bool.and_eq_true, decide_eq_true_eq] at hk
      simp only [readsOf] at hreads
      rcases hmode with ⟨hp, hq, hkc⟩ | ⟨hp, hq, hkc⟩
      · subst hp
        obtain ⟨v, q, hvq⟩ : ∃ v q, ch.queue = v :: q := by
          cases hc : ch.queue with
          | nil => rw [hc] at hq; simp at hq; omega
          | cons v q => exact ⟨v, q, rfl⟩
        have hlen1 : q.length = k - 1 := by
          rw [hvq] at hq
          simp at hq
          omega
        simp only [pumpLoop, hready, chanRecv_cons ch v q hvq]
        exact ih { p with ready := some { ch with queue := q } } { ch with queue := q } n log
          (k - 1) pre last e none rfl hcap
          (Or.inl ⟨rfl, hlen1, (by show k - 1 ≤ ch.cap; omega)⟩) hk.2 hreads hpre
          hlast hlen hn htot
      · subst hp
        obtain ⟨v, q, hvq⟩ : ∃ v q, ch.queue = v :: q := by
          cases hc : ch.queue with
          | nil => rw [hc] at hq; simp at hq; omega
          | cons v q => exact ⟨v, q, rfl⟩
        have hlen1 : q.length < ch.cap := by
          rw [hvq] at hq
          simp at hq
          omega
        have hlen2 : q.length + 1 = ch.cap := by
          rw [hvq] at hq
          simpa using hq
        have hsend := chanSend_room ({ ch with queue := q } : Chan (Option GoError)) none hlen1
        simp only [pumpLoop, hready, chanRecv_cons ch v q hvq, hsend]
        have h := ih { p with ready := some { ch with queue := q ++ [none] } }
          { ch with queue := q ++ [none] } n (log ++ [Effect.post none]) (k - 1) pre last e none
          rfl hcap (Or.inl ⟨rfl, by simp; omega, by simp; omega⟩) hk.2 hreads hpre hlast hlen
          hn htot
        simpa [pendPost] using h
    | read r =>
      simp only [keepsUp, Bool.and_eq_true, decide_eq_true_eq] at hk
      simp only [readsOf] at hreads
      rcases hmode with ⟨hp, hq, hkc⟩ | ⟨hp, hq, hkc⟩
      · subst hp
        have hrm : r ∈ pre ++ [last] := by rw [← hreads]; simp
        have hl : ¬ minRead < r.chunk.length := by
          have := hlen r hrm
          omega
        obtain ⟨p1, hp1, hstep⟩ := pumpLoop_read p n log r ss hl
        rw [hstep, hp1, hready]
        have htn := totalRead_nonneg (pre ++ [last])
        cases pre with
        | nil =>
          simp only [List.nil_append, List.cons.injEq] at hreads
          obtain ⟨rfl, hss⟩ := hreads
          have hone : totalRead [r] = r.chunk.length := by simp [totalRead]
          rw [List.nil_append, hone] at htot
          rw [List.nil_append, pumpTrace_last n r e hl hlast]
          by_cases hroom : ch.queue.length < ch.cap
          · rw [chanSend_room ch r.err hroom]
            by_cases he : e = GoError.EOF <;> simp [hlast, pendPost, he]
          · rw [chanSend_full ch r.err hroom]
            have hfull : ch.queue.length = ch.cap := by omega
            have hk2 : keepsUp ch.cap (ch.cap + 1) ss = true := by
              have : k + 1 = ch.cap + 1 := by omega
              rw [← this]
              exact hk.2
            have h := pumpLoop_terminal ss p1 ch (wrapInt64 (n + r.chunk.length))
              (log ++ if 0 < r.chunk.length then [Effect.bufWrite r.chunk] else []) e
              (by rw [hp1, hready]) hcap hfull hk2 hss
            simp only [hlast]
            by_cases he : e = GoError.EOF <;> simpa [pendPost, he] using h
        | cons r0 pre0 =>
          simp only [List.cons_append, List.cons.injEq] at hreads
          obtain ⟨rfl, hss⟩ := hreads
          have hr : r.err = none := hpre r (by simp)
          have hcons : totalRead (r :: pre0 ++ [last]) =
              r.chunk.length + totalRead (pre0 ++ [last]) := rfl
          have hlist : r :: pre0 ++ [last] = r :: (pre0 ++ [last]) := rfl
          have htn0 := totalRead_nonneg (pre0 ++ [last])
          rw [hcons] at htot
          have hw : wrapInt64 (n + r.chunk.length) = n + r.chunk.length :=
            wrapInt64_id _ (by omega) (by omega)
          rw [hlist, pumpTrace_cons_nil n r _ hl hr, hw, hr]
          by_cases hroom : ch.queue.length < ch.cap
          · rw [chanSend_room ch none hroom]
            have h := ih { p1 with ready := some { ch with queue := ch.queue ++ [none] } }
              { ch with queue := ch.queue ++ [none] } (n + r.chunk.length)
              ((log ++ if 0 < r.chunk.length then [Effect.bufWrite r.chunk] else []) ++
                [Effect.post none])
              (k + 1) pre0 last e none rfl hcap
              (Or.inl ⟨rfl, by simp; omega, by simp at hroom ⊢; omega⟩) hk.2 hss
              (fun x hx => hpre x (by simp [hx])) hlast
              (fun x hx => hlen x (by simp at hx ⊢; tauto)) (by omega) (by omega)
            simpa [pendPost, List.append_assoc] using h
          · rw [chanSend_full ch none hroom]
            have h := ih p1 ch (n + r.chunk.length)
              (log ++ if 0 < r.chunk.length then [Effect.bufWrite r.chunk] else [])
              (k + 1) pre0 last e (some none) (by rw [hp1, hready]) hcap
              (Or.inr ⟨rfl, by omega, by omega⟩) hk.2 hss
              (fun x hx => hpre x (by simp [hx])) hlast
              (fun x hx => hlen x (by simp at hx ⊢; tauto)) (by omega) (by omega)
            simpa [pendPost, List.append_assoc] using h
      · omega

theorem concatBytes_append (a b : List (List Byte)) :
    concatBytes (a ++ b) = concatBytes a ++ concatBytes b := by
  induction a with
  | nil => rfl
  | cons x xs ih => simp [concatBytes, ih]

theorem pumpLoop_buf : ∀ (sched : List PumpStep) (p : stdio) (n : Int)
    (pend : Option (Option GoError)) (log : List Effect) (base : List Byte),
    (∀ st ∈ sched, st ≠ PumpStep.drain) →
    p.buf.data = base ++ concatBytes (bufWrites log) →
    (pumpLoop p n pend log sched).p.buf.data =
      base ++ concatBytes (bufWrites (pumpLoop p n pend log sched).log) := by
  intro sched
  induction sched with
  | nil =>
    intro p n pend log base _ hb
    cases pend <;> simpa [pumpLoop] using hb
  | cons step ss ih =>
    intro p n pend log base hnd hb
    have hnd' : ∀ st ∈ ss, st ≠ PumpStep.drain := fun st hst => hnd st (by simp [hst])
    have hpost : ∀ t, base ++ concatBytes (bufWrites (log ++ [Effect.post t])) = p.buf.data := by
      intro t
      rw [bufWrites_append, hb]
      simp [bufWrites]
    cases step with
    | drain => exact absurd rfl (hnd PumpStep.drain (by simp))
    | take =>
      simp only [pumpLoop]
      cases hr : chanRecv p.ready with
      | none => simpa using hb
      | some tok =>
        cases pend with
        | none =>
          dsimp only
          exact ih { p with ready := tok.2 } n none log base hnd' hb
        | some err =>
          dsimp only
          cases hs : chanSend tok.2 err with
          | none =>
            dsimp only
            exact ih { p with ready := tok.2 } n (some err) log base hnd' hb
          | some ch =>
            cases err with
            | none =>
              dsimp only
              exact ih { p with ready := ch } n none _ base hnd' (hpost none).symm
            | some e =>
              dsimp only
              exact (hpost (some e)).symm
    | read r =>
      cases pend with
      | some err => simpa [pumpLoop] using hb
      | none =>
        by_cases hl : minRead < r.chunk.length
        · simpa [pumpLoop, hl] using hb
        · have hbuf : (if 0 < r.chunk.length then
                ({ p with buf := (p.buf.Write r.chunk).1 } : stdio) else p).buf.data =
              base ++ concatBytes (bufWrites
                (if 0 < r.chunk.length then log ++ [Effect.bufWrite r.chunk] else log)) := by
            by_cases hc : 0 < r.chunk.length
            · simp [hc, Buffer.Write, hb, bufWrites_append, bufWrites, concatBytes_append,
                concatBytes]
            · simp [hc, hb]
          have hbufp : ∀ t, (if 0 < r.chunk.length then
                ({ p with buf := (p.buf.Write r.chunk).1 } : stdio) else p).buf.data =
              base ++ concatBytes (bufWrites
                ((if 0 < r.chunk.length then log ++ [Effect.bufWrite r.chunk] else log) ++
                  [Effect.post t])) := by
            intro t
            rw [bufWrites_append, hbuf]
            simp [bufWrites]
          simp only [pumpLoop, hl, if_false]
          cases hs : chanSend (if 0 < r.chunk.length then
              ({ p with buf := (p.buf.Write r.chunk).1 } : stdio) else p).ready r.err with
          | none =>
            dsimp only
            exact ih _ _ _ _ base hnd' hbuf
          | some ch =>
            cases he : r.err with
            | none =>
              dsimp only
              exact ih { (if 0 < r.chunk.length then
                ({ p with buf := (p.buf.Write r.chunk).1 } : stdio) else p) with ready := ch }
                _ none _ base hnd' (he ▸ hbufp r.err)
            | some e =>
              dsimp only
              exact he ▸ hbufp r.err

/-- C8, as stated, fails: on a fresh channel with no consumer, after ten reads
of one byte the readiness channel is full; when the eleventh read returns the
end of stream, the pump stays parked on the send of the terminal token, which
is not posted, and the call does not return. -/
theorem ReadFrom_parks_when_full :
    (newStdio.ReadFrom
      (List.replicate 10 (.read ⟨[1], none⟩) ++ [.read ⟨[], some GoError.EOF⟩])).status =
      PumpEnd.parked ∧
    tokens (newStdio.ReadFrom
      (List.replicate 10 (.read ⟨[1], none⟩) ++ [.read ⟨[], some GoError.EOF⟩])).log =
      List.replicate 10 none := by
  decide

/-- C8, amended. Output pump `ReadFrom` on a channel of positive capacity,
against any schedule in which the consumer keeps up (no `Read` returns while the pump is
parked on a full channel, and no send is left parked at the end), whose reads
stay within the 4096-byte slice, total less than 2^63 bytes and carry an error
only in the last one: the pump appends exactly the non-empty chunks in read
order (so the bytes appended are the concatenation of all chunks, and they are
the buffer's new contents when the consumer has not drained it), follows every
append directly by one token, posts one nil token per earlier read and the
terminal token (the error of the last read) last, and returns the total number
of bytes read with nil when that error is `io.EOF` and with the error
otherwise. -/
theorem ReadFrom_pump (p : stdio) (ch : Chan (Option GoError)) (sched : List PumpStep)
    (pre : List ReadResult) (last : ReadResult) (e : GoError)
    (hready : p.ready = some ch) (hcap : 0 < ch.cap) (hq : ch.queue.length ≤ ch.cap)
    (hkeep : keepsUp ch.cap ch.queue.length sched = true)
    (hreads : readsOf sched = pre ++ [last])
    (hpre : ∀ r ∈ pre, r.err = none) (hlast : last.err = some e)
    (hlen : ∀ r ∈ pre ++ [last], r.chunk.length ≤ minRead)
    (htot : totalRead (pre ++ [last]) < 2 ^ 63) :
    bufWrites (p.ReadFrom sched).log =
      ((pre ++ [last]).map fun r => r.chunk).filter (fun c => !c.isEmpty) ∧
    concatBytes (bufWrites (p.ReadFrom sched).log) = allChunks (pre ++ [last]) ∧
    paired (p.ReadFrom sched).log = true ∧
    tokens (p.ReadFrom sched).log = List.replicate pre.length none ++ [some e] ∧
    (p.ReadFrom sched).log.getLast? = some (Effect.post (some e)) ∧
    (p.ReadFrom sched).status =
      PumpEnd.returned (totalRead (pre ++ [last])) (if e = GoError.EOF then none else some e) ∧
    ((∀ st ∈ sched, st ≠ PumpStep.drain) →
      (p.ReadFrom sched).p.buf.data = p.buf.data ++ allChunks (pre ++ [last])) := by
  obtain ⟨hlog, hstatus⟩ := pumpLoop_keepsUp sched p ch 0 [] ch.queue.length pre last e none
    hready hcap (Or.inl ⟨rfl, rfl, hq⟩) hkeep hreads hpre hlast hlen (le_refl 0) (by omega)
  obtain ⟨h1, h2, h3, h4, l, h5⟩ :=
    pumpTrace_run pre 0 last e hpre hlast hlen (le_refl 0) (by omega)
  have hlog' : (p.ReadFrom sched).log = (pumpTrace 0 (pre ++ [last])).1 := by
    unfold stdio.ReadFrom
    rw [hlog]
    simp [pendPost]
  have hstatus' : (p.ReadFrom sched).status = (pumpTrace 0 (pre ++ [last])).2 := hstatus
  have hcat : concatBytes (bufWrites (pumpTrace 0 (pre ++ [last])).1) =
      allChunks (pre ++ [last]) := by
    rw [h1, concat_nonEmpty]
  refine ⟨by rw [hlog', h1], by rw [hlog', hcat], by rw [hlog', h3], by rw [hlog', h2], ?_,
    ?_, ?_⟩
  · rw [hlog', h5]
    simp
  · rw [hstatus', h4, zero_add]
  · intro hnd
    have hb := pumpLoop_buf sched p 0 none [] p.buf.data hnd (by simp [bufWrites, concatBytes])
    have hb' : (p.ReadFrom sched).p.buf.data =
        p.buf.data ++ concatBytes (bufWrites (p.ReadFrom sched).log) := hb
    rw [hb', hlog', hcat]

/-- Witness for C8: twelve reads on a fresh channel of capacity 10, the
consumer taking a token each time the pump is parked. -/
theorem ReadFrom_pump_witness :
    (newStdio.ReadFrom demoSched).status = PumpEnd.returned 11 none ∧
    tokens (newStdio.ReadFrom demoSched).log = List.replicate 11 none ++ [some GoError.EOF] ∧
    (newStdio.ReadFrom demoSched).p.buf.data = List.replicate 10 7 ++ [3] :=
  have h := ReadFrom_pump newStdio { cap := 10, queue := [] } demoSched demoReads
    ⟨[3], some GoError.EOF⟩ GoError.EOF rfl (by decide) (by decide) (by decide) (by decide)
    (by decide) rfl (by decide) (by decide)
  ⟨h.2.2.2.2.2.1, h.2.2.2.1, h.2.2.2.2.2.2 (by decide)⟩

/-! ## Properties of the receive loop -/

theorem recvLoop_env {σ : Type} (rdr : Option (Reader σ)) :
    ∀ (pre : List Event) (st : RecvState σ) (q : processContext) (tl : List Event),
    envRun st.p pre = some q →
    recvLoop rdr st (pre ++ tl) = recvLoop rdr { st with p := q } tl := by
  intro pre
  induction pre with
  | nil =>
    intro st q tl h
    simp only [envRun, Option.some.injEq] at h
    simp [← h]
  | cons ev pre ih =>
    intro st q tl h
    cases ev with
    | pump s e =>
      simp only [envRun] at h
      cases hp : st.p.pump s e with
      | none => simp [hp] at h
      | some q1 =>
        simp only [hp] at h
        simp only [List.cons_append, recvLoop, hp]
        exact ih { st with p := q1 } q tl h
    | cancel =>
      simp only [envRun] at h
      cases hp : st.p.Cancel with
      | none => simp [hp] at h
      | some q1 =>
        simp only [hp] at h
        simp only [List.cons_append, recvLoop, hp]
        exact ih { st with p := q1 } q tl h
    | wake w => simp [envRun] at h

theorem recvLoop_waiting {σ : Type} (rdr : Option (Reader σ)) :
    ∀ (tr : List Event) (st0 st : RecvState σ) (tl : List Event),
    recvLoop rdr st0 tr = .waiting st →
    recvLoop rdr st0 (tr ++ tl) = recvLoop rdr st tl := by
  intro tr
  induction tr with
  | nil =>
    intro st0 st tl h
    simp only [recvLoop, Outcome.waiting.injEq] at h
    simp [h]
  | cons ev tr ih =>
    intro st0 st tl h
    cases ev with
    | pump s e =>
      simp only [recvLoop] at h
      cases hp : st0.p.pump s e with
      | none => simp [hp] at h
      | some q1 =>
        simp only [hp] at h
        simp only [List.cons_append, recvLoop, hp]
        exact ih _ st tl h
    | cancel =>
      simp only [recvLoop] at h
      cases hp : st0.p.Cancel with
      | none => simp [hp] at h
      | some q1 =>
        simp only [hp] at h
        simp only [List.cons_append, recvLoop, hp]
        exact ih _ st tl h
    | wake w =>
      simp only [recvLoop] at h
      cases hp : selectStep rdr st0 w with
      | none => simp [hp] at h
      | some st1 =>
        simp only [hp] at h
        simp only [List.cons_append, recvLoop, hp]
        by_cases hs : (deadlineStep st1 w.now).stop = true
        · simp [hs] at h
        · simp only [hs] at h ⊢
          exact ih _ st tl h

theorem envRun_bufWrites : ∀ (pre : List Event) (p : processContext),
    (∀ ev ∈ pre, ev.isBufWrite = true) →
    ∃ q, envRun p pre = some q ∧ q.stdout.ready = p.stdout.ready ∧
      q.stderr.ready = p.stderr.ready ∧ q.cancel = p.cancel := by
  intro pre
  induction pre with
  | nil =>
    intro p _
    exact ⟨p, rfl, rfl, rfl, rfl⟩
  | cons ev pre ih =>
    intro p h
    have hev := h ev (by simp)
    obtain ⟨s, b, rfl⟩ : ∃ s b, ev = Event.pump s (Effect.bufWrite b) := by
      cases ev with
      | pump s e =>
        cases e with
        | bufWrite b => exact ⟨s, b, rfl⟩
        | post t => simp [Event.isBufWrite] at hev
      | cancel => simp [Event.isBufWrite] at hev
      | wake w => simp [Event.isBufWrite] at hev
    cases s with
    | out =>
      obtain ⟨q, h1, h2, h3, h4⟩ :=
        ih { p with stdout := { p.stdout with buf := (p.stdout.buf.Write b).1 } }
          (fun x hx => h x (by simp [hx]))
      exact ⟨q, by simp [envRun, processContext.pump, stdio.apply, h1], h2, h3, h4⟩
    | err =>
      obtain ⟨q, h1, h2, h3, h4⟩ :=
        ih { p with stderr := { p.stderr with buf := (p.stderr.buf.Write b).1 } }
          (fun x hx => h x (by simp [hx]))
      exact ⟨q, by simp [envRun, processContext.pump, stdio.apply, h1], h2, h3, h4⟩

/-- C2. A `Receive` call with a positive timeout `T` and a non-nil reader, on a
controller with no token pending, during which the pumps bring no token and
`Cancel` is not called before the first wake-up (the clock being consistent):
when that wake-up is the timer expiring, which is never before `start + T`,
`OnTimeout` is invoked, it is the only callback of the call, and the call
returns there, leaving the later events unconsumed; no other wake-up can
happen. -/
theorem Receive_timeout_only {σ : Type} (p : processContext) (rd : Reader σ) (rs : σ)
    (T start : Int) (pre rest : List Event) (w : Wake)
    (_hT : 0 < T)
    (hout : chanRecv p.stdout.ready = none) (herr : chanRecv p.stderr.ready = none)
    (hcan : p.cancel.recv = none)
    (hpre : ∀ ev ∈ pre, ev.isBufWrite = true)
    (hclock : start ≤ w.armed ∧ w.armed ≤ w.woke ∧ w.woke ≤ w.now) :
    (w.pick = Case.timer ∧ w.armed + T ≤ w.woke →
      ∃ st, p.Receive (some rd) rs T start (pre ++ .wake w :: rest) = .returned st rest ∧
        st.calls = [(w.woke, Call.OnTimeout)] ∧ start + T ≤ w.woke ∧
        st.rs = rd.OnTimeout rs ∧ st.waits = [(start, T)]) ∧
    (¬ (w.pick = Case.timer ∧ w.armed + T ≤ w.woke) →
      p.Receive (some rd) rs T start (pre ++ .wake w :: rest) = .invalid) := by
  obtain ⟨q, hq, h1, h2, h3⟩ := envRun_bufWrites pre p hpre
  have hrun : p.Receive (some rd) rs T start (pre ++ .wake w :: rest) =
      recvLoop (some rd) (recvInit q rs T start) (.wake w :: rest) := by
    unfold processContext.Receive
    rw [recvLoop_env (some rd) pre (recvInit p rs T start) q _ (by simpa [recvInit] using hq)]
    rfl
  rw [hrun]
  rw [← h1] at hout
  rw [← h2] at herr
  rw [← h3] at hcan
  refine ⟨?_, ?_⟩
  · rintro ⟨hpick, hexp⟩
    have : start + T ≤ w.woke := by omega
    simp only [recvLoop, selectStep, recvInit, hclock, and_self, if_true, hpick, hexp,
      deadlineStep]
    by_cases hd : start + T < w.now <;> simp [hd, this]
  · intro hno
    cases hpick : w.pick with
    | timer =>
      have hexp : ¬ w.armed + T ≤ w.woke := fun h => hno ⟨hpick, h⟩
      simp [recvLoop, selectStep, recvInit, hclock, hpick, hexp]
    | stdout => simp [recvLoop, selectStep, recvInit, hclock, hpick, hout]
    | stderr => simp [recvLoop, selectStep, recvInit, hclock, hpick, herr]
    | cancel => simp [recvLoop, selectStep, recvInit, hclock, hpick, hcan]

/-- Witness for C2: timeout 5 from clock 0, one buffer append by the stdout
pump, then the timer wake-up at clock 5 observed at clock 6. -/
theorem Receive_timeout_only_witness :
    ∃ st, (InteractiveExec ProcState.running).Receive (some quietReader) () 5 0
        ([.pump .out (.bufWrite [1])] ++ .wake ⟨0, 5, .timer, 6⟩ :: [.cancel]) =
          .returned st [.cancel] ∧
      st.calls = [(5, Call.OnTimeout)] ∧ (0 : Int) + 5 ≤ 5 ∧
      st.rs = quietReader.OnTimeout () ∧ st.waits = [(0, 5)] :=
  (Receive_timeout_only (InteractiveExec ProcState.running) quietReader () 5 0
    [.pump .out (.bufWrite [1])] [.cancel] ⟨0, 5, .timer, 6⟩
    (by decide) (by decide) (by decide) (by decide) (by decide) (by decide)).1
    ⟨rfl, by decide⟩

theorem selectStep_stream {σ : Type} (rdr : Option (Reader σ)) (st : RecvState σ) (w : Wake)
    (s : Stream) (hpick : w.pick = s.case) :
    selectStep rdr st w =
      if st.t ≤ w.armed ∧ w.armed ≤ w.woke ∧ w.woke ≤ w.now then
        match chanRecv (st.p.chan s).ready with
        | none => none
        | some tok => some (afterDrain rdr st w s tok.2)
      else none := by
  by_cases htime : st.t ≤ w.armed ∧ w.armed ≤ w.woke ∧ w.woke ≤ w.now
  · cases s with
    | out =>
      simp only [selectStep, htime, and_self, if_true, hpick, Stream.case, processContext.chan,
        readAll_eq]
      cases hr : chanRecv st.p.stdout.ready with
      | none => simp
      | some tok =>
        cases rdr with
        | none =>
          by_cases hb : 0 < st.p.stdout.buf.data.length <;>
            simp [afterDrain, processContext.chan, processContext.setChan, hb]
        | some rd =>
          by_cases hb : 0 < st.p.stdout.buf.data.length <;>
            simp [afterDrain, processContext.chan, processContext.setChan, hb,
              Reader.callback, Call.data]
    | err =>
      simp only [selectStep, htime, and_self, if_true, hpick, Stream.case, processContext.chan,
        readAll_eq]
      cases hr : chanRecv st.p.stderr.ready with
      | none => simp
      | some tok =>
        cases rdr with
        | none =>
          by_cases hb : 0 < st.p.stderr.buf.data.length <;>
            simp [afterDrain, processContext.chan, processContext.setChan, hb]
        | some rd =>
          by_cases hb : 0 < st.p.stderr.buf.data.length <;>
            simp [afterDrain, processContext.chan, processContext.setChan, hb,
              Reader.callback, Call.data]
  · simp [selectStep, htime]

theorem setChan_chan (p : processContext) (s : Stream) (q : stdio) :
    (p.setChan s q).chan s = q ∧ (p.setChan s q).chan s.other = p.chan s.other ∧
    (p.setChan s q).cancel = p.cancel ∧ (p.setChan s q).stdin = p.stdin ∧
    (p.setChan s q).proc = p.proc := by
  cases s <;> simp [processContext.setChan, processContext.chan, Stream.other]

theorem selectStep_stream_some {σ : Type} (rdr : Option (Reader σ)) (st st1 : RecvState σ)
    (w : Wake) (s : Stream) (hpick : w.pick = s.case) (h : selectStep rdr st w = some st1) :
    ∃ tok, chanRecv (st.p.chan s).ready = some tok ∧ st1 = afterDrain rdr st w s tok.2 := by
  rw [selectStep_stream rdr st w s hpick] at h
  by_cases htime : st.t ≤ w.armed ∧ w.armed ≤ w.woke ∧ w.woke ≤ w.now
  · rw [if_pos htime] at h
    cases hr : chanRecv (st.p.chan s).ready with
    | none => simp [hr] at h
    | some tok =>
      simp only [hr, Option.some.injEq] at h
      exact ⟨tok, rfl, h.symm⟩
  · rw [if_neg htime] at h
    cases h

/-- C7. Dispatch step of `Receive` on a readiness wake-up of a stream, at a
consistent clock and with `stop` false as at the top of the loop. Without a
token on that channel the wake-up cannot happen. With a token it happens: the
token is taken and the whole buffer of that channel is drained; the other
stream and the cancel channel are untouched. With a non-nil reader and
non-empty drained bytes the callback of that stream (`OnData` for stdout,
`OnError` for stderr) is invoked once with exactly those bytes and its result
becomes `stop`; with a nil reader or nothing drained no callback is invoked
and `stop` stays false, and the loop then goes on waiting unless the deadline
check ends it. -/
theorem selectStep_dispatch {σ : Type} (rdr : Option (Reader σ)) (st : RecvState σ)
    (w : Wake) (s : Stream) (hpick : w.pick = s.case) (hstop : st.stop = false)
    (hclock : st.t ≤ w.armed ∧ w.armed ≤ w.woke ∧ w.woke ≤ w.now) :
    (chanRecv (st.p.chan s).ready = none → selectStep rdr st w = none) ∧
    (∀ tok, chanRecv (st.p.chan s).ready = some tok →
      ∃ st1, selectStep rdr st w = some st1 ∧
        (st1.p.chan s).buf.data = [] ∧ (st1.p.chan s).ready = tok.2 ∧
        st1.p.chan s.other = st.p.chan s.other ∧ st1.p.cancel = st.p.cancel ∧
        st1.waits = st.waits ++ [(st.t, st.timeout)] ∧
        (∀ rd, rdr = some rd → (st.p.chan s).buf.data ≠ [] →
          st1.calls = st.calls ++ [(w.woke, Call.data s (st.p.chan s).buf.data)] ∧
          st1.stop = (rd.callback s st.rs (st.p.chan s).buf.data).1 ∧
          st1.rs = (rd.callback s st.rs (st.p.chan s).buf.data).2) ∧
        (rdr = none ∨ (st.p.chan s).buf.data = [] →
          st1.calls = st.calls ∧ st1.stop = false ∧ st1.rs = st.rs ∧
          ∀ rest, recvLoop rdr st (.wake w :: rest) =
            if st.deadline < w.now then .returned (deadlineStep st1 w.now) rest
            else recvLoop rdr (deadlineStep st1 w.now) rest)) := by
  have hsel := selectStep_stream rdr st w s hpick
  rw [if_pos hclock] at hsel
  refine ⟨?_, ?_⟩
  · intro hnone
    rw [hsel, hnone]
  · intro tok htok
    rw [htok] at hsel
    have h : selectStep rdr st w = some (afterDrain rdr st w s tok.2) := hsel
    have hset := setChan_chan st.p s { buf := { data := [] }, ready := tok.2 }
    have hp : (afterDrain rdr st w s tok.2).p =
        st.p.setChan s { buf := { data := [] }, ready := tok.2 } := by
      unfold afterDrain
      cases rdr with
      | none => rfl
      | some rd => dsimp only; split <;> rfl
    have hwaits : (afterDrain rdr st w s tok.2).waits = st.waits ++ [(st.t, st.timeout)] := by
      unfold afterDrain
      cases rdr with
      | none => rfl
      | some rd => dsimp only; split <;> rfl
    refine ⟨afterDrain rdr st w s tok.2, h, by rw [hp, hset.1], by rw [hp, hset.1],
      by rw [hp, hset.2.1], by rw [hp, hset.2.2.1], hwaits, ?_, ?_⟩
    · intro rd hrd hne
      subst hrd
      have hlen : 0 < (st.p.chan s).buf.data.length := List.length_pos.mpr hne
      simp [afterDrain, hlen]
    · intro hcase
      have hbase : (afterDrain rdr st w s tok.2).calls = st.calls ∧
          (afterDrain rdr st w s tok.2).stop = false ∧
          (afterDrain rdr st w s tok.2).rs = st.rs ∧
          (afterDrain rdr st w s tok.2).deadline = st.deadline := by
        rcases hcase with hnil | hempty
        · subst hnil
          simp [afterDrain, hstop]
        · cases rdr with
          | none => simp [afterDrain, hstop]
          | some rd => simp [afterDrain, hempty, hstop]
      refine ⟨hbase.1, hbase.2.1, hbase.2.2.1, ?_⟩
      intro rest
      simp only [recvLoop, h]
      by_cases hd : st.deadline < w.now
      · simp [deadlineStep, hbase.2.2.2, hd]
      · simp [deadlineStep, hbase.2.2.2, hbase.2.1, hd]

/-- Witness for C7: a stderr wake-up with a nil reader on a channel holding one
token and an empty buffer: the wake-up happens, the token is taken, and no
callback is recorded. -/
theorem selectStep_dispatch_witness :
    ∃ st1, selectStep (none : Option (Reader Unit))
        (recvInit { dataCtx with
            stderr := { buf := { data := [] }, ready := some { cap := 10, queue := [none] } } }
          () 10 0) ⟨0, 1, .stderr, 2⟩ = some st1 ∧
      st1.p.stderr.ready = some { cap := 10, queue := [] } ∧ st1.calls = [] :=
  match (selectStep_dispatch (none : Option (Reader Unit))
      (recvInit { dataCtx with
          stderr := { buf := { data := [] }, ready := some { cap := 10, queue := [none] } } }
        () 10 0) ⟨0, 1, .stderr, 2⟩ .err rfl rfl (by decide)).2
      (none, some { cap := 10, queue := [] }) rfl with
  | ⟨st1, h1, _, h3, _, _, _, _, h8⟩ => ⟨st1, h1, h3, (h8 (Or.inl rfl)).1⟩

/-- C3. Whenever a `Receive` call is waiting and a readiness wake-up of a
stream happens whose callback (`OnData` for stdout, `OnError` for stderr)
returns true, the call returns at that wake-up whatever the clock and the
deadline: that callback is the last one recorded, the wake-up is the last wait,
the later events stay unconsumed, and apart from the one token taken on that
stream the other stream and the cancel channel are untouched. -/
theorem Receive_stops_on_true {σ : Type} (p : processContext) (rd : Reader σ) (rs : σ)
    (T start : Int) (tr rest : List Event) (st : RecvState σ) (w : Wake) (s : Stream)
    (hwait : p.Receive (some rd) rs T start tr = .waiting st)
    (hpick : w.pick = s.case)
    (hvalid : selectStep (some rd) st w ≠ none)
    (hdata : (st.p.chan s).buf.data ≠ [])
    (htrue : (rd.callback s st.rs (st.p.chan s).buf.data).1 = true) :
    ∃ st1, p.Receive (some rd) rs T start (tr ++ .wake w :: rest) = .returned st1 rest ∧
      st1.calls = st.calls ++ [(w.woke, Call.data s (st.p.chan s).buf.data)] ∧
      st1.waits = st.waits ++ [(st.t, st.timeout)] ∧
      st1.p.chan s.other = st.p.chan s.other ∧ st1.p.cancel = st.p.cancel ∧
      (∃ tok, chanRecv (st.p.chan s).ready = some (tok, (st1.p.chan s).ready)) := by
  cases hsel : selectStep (some rd) st w with
  | none => exact absurd hsel hvalid
  | some st0 =>
    obtain ⟨tok, htok, rfl⟩ := selectStep_stream_some (some rd) st st0 w s hpick hsel
    have hset := setChan_chan st.p s { buf := { data := [] }, ready := tok.2 }
    have hlen : 0 < (st.p.chan s).buf.data.length := List.length_pos.mpr hdata
    have hrun : p.Receive (some rd) rs T start (tr ++ .wake w :: rest) =
        recvLoop (some rd) st (.wake w :: rest) := by
      unfold processContext.Receive at hwait ⊢
      exact recvLoop_waiting (some rd) tr _ st _ hwait
    have hstop : (deadlineStep (afterDrain (some rd) st w s tok.2) w.now).stop = true := by
      unfold deadlineStep
      split <;> simp [afterDrain, hlen, htrue]
    refine ⟨deadlineStep (afterDrain (some rd) st w s tok.2) w.now, ?_, ?_, ?_, ?_, ?_, ?_⟩
    · rw [hrun]
      simp only [recvLoop, hsel, hstop, if_true]
    · unfold deadlineStep
      split <;> simp [afterDrain, hlen]
    · unfold deadlineStep
      split <;> simp [afterDrain, hlen]
    · unfold deadlineStep
      split <;> simp [afterDrain, hlen, hset.2.1]
    · unfold deadlineStep
      split <;> simp [afterDrain, hlen, hset.2.2.1]
    · refine ⟨tok.1, ?_⟩
      unfold deadlineStep
      split <;> simp [afterDrain, hlen, hset.1, htok]

/-- Witness for C3: after one buffer append and its token on stderr, a stderr
wake-up long before the deadline with a reader that answers true. -/
theorem Receive_stops_on_true_witness :
    ∃ st1, (InteractiveExec ProcState.running).Receive (some stopReader) () 1000 0
        ([.pump .err (.bufWrite [7]), .pump .err (.post none)] ++
          .wake ⟨1, 2, .stderr, 3⟩ :: [.cancel]) = .returned st1 [.cancel] ∧
      st1.calls = [] ++ [(2, Call.data .err [7])] :=
  have h := Receive_stops_on_true (InteractiveExec ProcState.running) stopReader () 1000 0
    [.pump .err (.bufWrite [7]), .pump .err (.post none)] [.cancel]
    (recvInit { InteractiveExec ProcState.running with
      stderr := { buf := { data := [7] }, ready := some { cap := 10, queue := [none] } } }
      () 1000 0)
    ⟨1, 2, .stderr, 3⟩ .err
    (by simp [processContext.Receive, recvLoop, recvInit, processContext.pump, stdio.apply,
      InteractiveExec, newStdio, Buffer.Write, chanSend, Chan.send])
    rfl
    (by
      rw [selectStep_stream _ _ _ .err rfl]
      simp [recvInit, processContext.chan, chanRecv, Chan.recv])
    (by simp [recvInit, processContext.chan])
    (by simp [stopReader, Reader.callback])
  match h with
  | ⟨st1, h1, h2, _⟩ => ⟨st1, h1, h2⟩

/-- C4, as stated, fails: with a cancel token pending (from `Cancel` on
`dataCtx`) and a stdout token pending as well, the first `select` may choose
the stdout case; `OnData` is then invoked and the call does not end on its
first wait but on the second, which takes the cancel token. -/
theorem Receive_cancel_pending_may_dispatch :
    dataCtx.Cancel = some cancelledCtx ∧
    (cancelledCtx.Receive (some quietReader) () 10 0
        [.wake ⟨0, 0, .stdout, 0⟩, .wake ⟨0, 0, .cancel, 0⟩]).returnedCalls =
      some [(0, Call.OnData [1])] ∧
    (cancelledCtx.Receive (some quietReader) () 10 0
        [.wake ⟨0, 0, .stdout, 0⟩, .wake ⟨0, 0, .cancel, 0⟩]).returnedWaits =
      some [(0, 10), (0, 10)] := by
  refine ⟨by decide, ?_, ?_⟩ <;>
    simp [processContext.Receive, recvLoop, recvInit, selectStep, deadlineStep, readAll_eq,
      cancelledCtx, chanRecv, Chan.recv, quietReader, Outcome.returnedCalls,
      Outcome.returnedWaits]

/-- C4, amended. With a cancel token pending because `Cancel` was called before
the `Receive` call, for any reader and any positive timeout: a first wake-up
that chooses the cancel case can happen at any consistent clock, and the call
then returns on that first wait, having taken the token, with no callback
invoked and the byte channels untouched; and the first wake-up can choose no
other case when no stdout or stderr token is pending and the wait ends before
the armed timer expires. -/
theorem Receive_cancel_pending {σ : Type} (p0 p : processContext) (rdr : Option (Reader σ))
    (rs : σ) (T start : Int) (w : Wake) (rest : List Event)
    (_hT : 0 < T) (hcancel : p0.Cancel = some p)
    (hclock : start ≤ w.armed ∧ w.armed ≤ w.woke ∧ w.woke ≤ w.now) :
    (w.pick = Case.cancel →
      ∃ st, p.Receive rdr rs T start (.wake w :: rest) = .returned st rest ∧
        st.calls = [] ∧ st.waits = [(start, T)] ∧ st.rs = rs ∧
        st.p.cancel.queue.length + 1 = p.cancel.queue.length ∧
        st.p.stdout = p.stdout ∧ st.p.stderr = p.stderr) ∧
    (chanRecv p.stdout.ready = none → chanRecv p.stderr.ready = none →
      w.woke < w.armed + T →
      p.Receive rdr rs T start (.wake w :: rest) ≠ .invalid → w.pick = Case.cancel) := by
  have hq : ∃ v q, p.cancel.queue = v :: q := by
    simp only [processContext.Cancel, Chan.send] at hcancel
    by_cases hroom : p0.cancel.queue.length < p0.cancel.cap
    · simp only [hroom, if_true, Option.map_some', Option.some.injEq] at hcancel
      subst hcancel
      cases hc : p0.cancel.queue with
      | nil => exact ⟨(), [], by simp [hc]⟩
      | cons v q => exact ⟨v, q ++ [()], by simp [hc]⟩
    · simp [hroom] at hcancel
  obtain ⟨v, q, hq⟩ := hq
  refine ⟨?_, ?_⟩
  · intro hpick
    simp only [processContext.Receive, recvLoop, recvInit, selectStep, hclock, and_self, if_true,
      hpick, Chan.recv, hq, deadlineStep]
    by_cases hd : start + T < w.now <;> simp [hd, hq]
  · intro hout herr hexp hvalid
    cases hpick : w.pick with
    | cancel => rfl
    | timer =>
      exfalso
      apply hvalid
      have : ¬ w.armed + T ≤ w.woke := by omega
      simp [processContext.Receive, recvLoop, recvInit, selectStep, hclock, hpick, this]
    | stdout =>
      exfalso
      apply hvalid
      simp [processContext.Receive, recvLoop, recvInit, selectStep, hclock, hpick, hout]
    | stderr =>
      exfalso
      apply hvalid
      simp [processContext.Receive, recvLoop, recvInit, selectStep, hclock, hpick, herr]

/-- Witness for C4: `Cancel` on a fresh controller, then a `Receive` with a nil
reader whose first wake-up is the cancel case. -/
theorem Receive_cancel_pending_witness :
    ∃ st, ({ InteractiveExec ProcState.running with cancel := { cap := 1, queue := [()] } } :
        processContext).Receive (none : Option (Reader Unit)) () 10 0
          (.wake ⟨0, 0, .cancel, 1⟩ :: []) = .returned st [] ∧
      st.calls = [] ∧ st.waits = [(0, 10)] :=
  match (Receive_cancel_pending (InteractiveExec ProcState.running)
      { InteractiveExec ProcState.running with cancel := { cap := 1, queue := [()] } }
      (none : Option (Reader Unit)) () 10 0 ⟨0, 0, .cancel, 1⟩ []
      (by decide) (by decide) (by decide)).1 rfl with
  | ⟨st, h1, h2, h3, _⟩ => ⟨st, h1, h2, h3⟩

end Exec
